import Mathlib

/-!
Verification of hid-tools (`hidtools/hid.py`): shallow embedding of the HID
report-descriptor item codec, the descriptor evaluator, and the bit-packed
field accessor, together with proofs settling the specification claims.

Python integers are modelled as `Int` (or `Nat` where the source value is
always non-negative), byte buffers as `List Nat`, and Python exceptions as
an `Except PyErr` result.
-/

deriving instance DecidableEq for Except

namespace HidTools

/-- The Python exception classes that the modelled code can raise. -/
inductive PyErr where
  /-- `hidtools.hid.ParseError` -/
  | parseError
  /-- built-in `KeyError` (failed dict lookup) -/
  | keyError
  /-- built-in `IndexError` (sequence index out of range) -/
  | indexError
  /-- built-in bare `Exception` (raised by `_set_value` / `set_values`) -/
  | exn
deriving DecidableEq

/-- Source `hid_items`, flattened to the `inv_hid` map (hid.py lines 29-97):
numeric item tag (upper 6 bits of the header byte) to item name. -/
def inv_hid : List (Nat × String) :=
  [ (0b10000000, "Input"),
    (0b10010000, "Output"),
    (0b10110000, "Feature"),
    (0b10100000, "Collection"),
    (0b11000000, "End Collection"),
    (0b00000100, "Usage Page"),
    (0b00010100, "Logical Minimum"),
    (0b00100100, "Logical Maximum"),
    (0b00110100, "Physical Minimum"),
    (0b01000100, "Physical Maximum"),
    (0b01010100, "Unit Exponent"),
    (0b01100100, "Unit"),
    (0b01110100, "Report Size"),
    (0b10000100, "Report ID"),
    (0b10010100, "Report Count"),
    (0b10100100, "Push"),
    (0b10110100, "Pop"),
    (0b00001000, "Usage"),
    (0b00011000, "Usage Minimum"),
    (0b00101000, "Usage Maximum"),
    (0b00111000, "Designator Index"),
    (0b01001000, "Designator Minimum"),
    (0b01011000, "Designator Maximum"),
    (0b01111000, "String Index"),
    (0b10001000, "String Minimum"),
    (0b10011000, "String Maximum"),
    (0b10101000, "Delimiter") ]

/-- Modelled from the spec: `hidtools.util.twos_comp` (imported by hid.py but
not part of the provided sources). Per spec section 3/4.B the value is decoded
as two's-complement of the payload width (sign-extended when the sign bit of
the `bits`-wide representation is set). The Python sign-bit test
`val & (1 << (bits - 1))` is expressed arithmetically; a width of 0 leaves the
value unchanged. -/
def twos_comp (val : Int) (bits : Nat) : Int :=
  if bits ≠ 0 ∧ (val.fdiv (2 ^ (bits - 1))) % 2 = 1 then val - 2 ^ bits else val

/-- Modelled from the spec: `hidtools.util.to_twos_comp` (imported by hid.py
but not part of the provided sources). Unsigned `bits`-wide encoding of a
two's-complement value, i.e. `val & ((1 << bits) - 1)`. -/
def to_twos_comp (val : Int) (bits : Nat) : Int :=
  val % (2 ^ bits)

/-- One item of a report descriptor (`HidRDescItem`): the numeric tag `hid`,
the decoded `value` and the raw payload bytes LSB-first. (`index_in_report`
is bookkeeping for dump output only and is not modelled.) -/
structure HidRDescItem where
  hid : Nat
  value : Int
  raw_value : List Nat
deriving DecidableEq

/-- Source `HidRDescItem.size`: size in bytes including the header byte. -/
def HidRDescItem.size (i : HidRDescItem) : Nat :=
  1 + i.raw_value.length

/-- Source `HidRDescItem.__init__` (hid.py lines 165-183): looks the tag up in
`inv_hid` (raising `KeyError` when absent), applies `twos_comp` to
Logical/Physical Minimum values over the payload width `(size - 1) * 8`,
and remaps Unit Exponent values above 7 by subtracting 16. -/
def mkHidRDescItem (hid : Nat) (value : Int) (raw_values : List Nat) :
    Except PyErr HidRDescItem :=
  match List.lookup hid inv_hid with
  | none => .error .keyError
  | some item =>
    let value :=
      if item = "Logical Minimum" ∨ item = "Physical Minimum" then
        twos_comp value (raw_values.length * 8)
      else value
    let value := if item = "Unit Exponent" ∧ value > 7 then value - 16 else value
    .ok { hid := hid, value := value, raw_value := raw_values }

/-- Source `HidRDescItem.bytes` (hid.py lines 194-206): header byte (tag ORed with
the size code, 4 payload bytes encoded as code 3) followed by the payload. -/
def HidRDescItem.bytes (i : HidRDescItem) : List Nat :=
  (if i.raw_value.length = 4 then i.hid ||| 0x3 else i.hid ||| i.raw_value.length)
    :: i.raw_value

/-- Declared payload length of a header byte: size code `header & 0x3`,
with code 3 meaning 4 bytes (hid.py lines 347-349). -/
def oneItemSize (header : Nat) : Nat :=
  if header &&& 0x3 = 3 then 4 else header &&& 0x3

/-- Little-endian assembly of payload bytes:
`value |= rdesc[idx] << (8 * position)` over the payload
(hid.py lines 354-376). -/
def assembleLE : List Nat → Nat
  | [] => 0
  | b :: rest => b ||| (assembleLE rest <<< 8)

/-- Source `HidRDescItem._one_item_from_bytes` (hid.py lines 328-378): `.ok none`
for a lone trailing 0x00 byte; `ParseError` when the upper six header bits
are zero otherwise; `IndexError` when the payload is truncated (the Python
code indexes past the end of the list); `KeyError` (from
`HidRDescItem.__init__`) for an unknown tag. -/
def HidRDescItem._one_item_from_bytes (rdesc : List Nat) :
    Except PyErr (Option HidRDescItem) :=
  match rdesc with
  | [] => .error .indexError
  | header :: rest =>
    if header = 0 ∧ rest = [] then .ok none
    else
      let size := oneItemSize header
      let hid := header &&& 0xfc
      if hid = 0 then .error .parseError
      else if size ≤ rest.length then
        let raw_values := rest.take size
        (mkHidRDescItem hid (assembleLE raw_values) raw_values).map some
      else .error .indexError

/-- The `while` loop of `HidRDescItem.from_bytes` (hid.py lines 390-400):
parse the first item of the remaining bytes, stop at a trailing zero,
advance by `item.size` bytes. Each iteration consumes at least one byte,
so the loop runs at most `len(rdesc)` times; `fuel` bounds the iteration
count (it is always larger than the remaining length, so the fuel-exhausted
branch is unreachable). -/
def fromBytesGo : Nat → List Nat → Except PyErr (List HidRDescItem)
  | 0, _ => .ok []
  | _ + 1, [] => .ok []
  | fuel + 1, b :: rest =>
    match HidRDescItem._one_item_from_bytes (b :: rest) with
    | .error e => .error e
    | .ok none => .ok []
    | .ok (some item) =>
      match fromBytesGo fuel (rest.drop (item.size - 1)) with
      | .error e => .error e
      | .ok items => .ok (item :: items)

/-- Source `HidRDescItem.from_bytes` (hid.py lines 380-400). -/
def HidRDescItem.from_bytes (rdesc : List Nat) : Except PyErr (List HidRDescItem) :=
  fromBytesGo (rdesc.length + 1) rdesc

end HidTools

namespace HidTools

/-- Source `HidField` (hid.py lines 594-621): one logical channel of a report.
`type` is the Main-item flags byte (`value` in the source), `size` the bit
size, `start` the bit offset assigned by `HidReport.append`/`extend`
(0 until assigned). -/
structure HidField where
  report_ID : Int
  logical : Option Nat
  physical : Option Nat
  application : Option Nat
  collection : Nat × Nat × Nat
  type : Nat
  usage_page : Nat
  usage : Nat
  usages : Option (List Nat)
  logical_min : Int
  logical_max : Int
  size : Nat
  count : Nat
  start : Nat
deriving DecidableEq

/-- The i-th usage of the Variable branch of `getHidFields`
(hid.py lines 791-798): `usages[i]` while in range, else `usages[-1]`. -/
def varUsage (usages : List Nat) (i : Nat) : Nat :=
  usages.getD i (usages.getLastD 0)

/-- Source `HidField.getHidFields` (hid.py lines 744-805): expand one Main item
into fields. Constant: one field of `item_size * count` bits. Variable:
`count` fields of `item_size` bits each with individually assigned usages
(`IndexError` when no usages and no usage range were given and `count > 0`).
Array: one field keeping `count`, with the alternatives list. The `value`
flags byte and sizes are non-negative in every reachable call, hence `Nat`. -/
def HidField.getHidFields (report_ID : Int)
    (logical physical application : Option Nat) (collection : Nat × Nat × Nat)
    (value : Nat) (usage_page : Nat) (usages : List Nat)
    (usage_min usage_max : Nat) (logical_min logical_max : Int)
    (item_size : Nat) (count : Nat) : Except PyErr (List HidField) :=
  let usage := match usages with
    | [] => usage_min
    | u :: _ => u
  let item : HidField :=
    { report_ID := report_ID, logical := logical, physical := physical,
      application := application, collection := collection, type := value,
      usage_page := usage_page, usage := usage, usages := none,
      logical_min := logical_min, logical_max := logical_max,
      size := item_size, count := 1, start := 0 }
  if value &&& (0x1 <<< 0) ≠ 0 then      -- Const item
    .ok [{ item with size := item.size * count }]
  else if value &&& (0x1 <<< 1) ≠ 0 then -- Variable item
    if usage_min ≠ 0 ∧ usage_max ≠ 0 then
      .ok ((List.range count).map fun i =>
        { item with usage := min (usage_min + i) usage_max })
    else if usages = [] ∧ count ≠ 0 then
      .error .indexError                  -- usages[-1] on an empty list
    else
      .ok ((List.range count).map fun i => { item with usage := varUsage usages i })
  else                                    -- Array item
    let usages :=
      if usage_min ≠ 0 ∧ usage_max ≠ 0 then
        List.range' usage_min (usage_max + 1 - usage_min)
      else usages
    .ok [{ item with usages := some usages, count := count }]

/-- Source `HidReport` (hid.py lines 808-816): `bitsize` is `_bitsize`, initialised
to 8 for a numbered report (`report_ID >= 0`). -/
structure HidReport where
  fields : List HidField
  report_ID : Int
  application : Option Nat
  bitsize : Nat
deriving DecidableEq

/-- Source `HidReport.__init__` (hid.py lines 809-816). -/
def HidReport.init (report_ID : Int) (application : Option Nat) : HidReport :=
  { fields := [], report_ID := report_ID, application := application,
    bitsize := if report_ID ≥ 0 then 8 else 0 }

/-- Source `HidReport.numbered` (hid.py lines 841-843). -/
def HidReport.numbered (r : HidReport) : Bool :=
  r.report_ID ≥ 0

/-- Source `HidReport.append` (hid.py lines 818-821): the appended field's `start`
is the current bit cursor, which then advances by `field.size`. -/
def HidReport.append (r : HidReport) (f : HidField) : HidReport :=
  { r with fields := r.fields ++ [{ f with start := r.bitsize }],
           bitsize := r.bitsize + f.size }

/-- Source `HidReport.extend` (hid.py lines 823-827): appends all fields, assigning
each its `start` and advancing the cursor by `f.size` (the Python loop over
the shared field objects is the same as repeated `append`). -/
def HidReport.extend (r : HidReport) (fs : List HidField) : HidReport :=
  fs.foldl HidReport.append r

/-- Source `HidReport.size` (hid.py lines 849-851): byte size `_bitsize >> 3`. -/
def HidReport.size (r : HidReport) : Nat :=
  r.bitsize >>> 3

/-- Source `HidReport.has_been_populated` (hid.py lines 853-857). -/
def HidReport.has_been_populated (r : HidReport) : Bool :=
  if r.report_ID ≥ 0 then r.bitsize > 8 else r.size > 0

/-- Source `ReportDescriptor._Globals` (hid.py lines 1029-1052). -/
structure Globals where
  usage_page : Nat
  logical : Option Nat
  physical : Option Nat
  application : Option Nat
  logical_min : Int
  logical_max : Int
  count : Nat
  item_size : Nat
deriving DecidableEq

/-- Initial `_Globals` record. -/
def Globals.init : Globals :=
  { usage_page := 0, logical := none, physical := none, application := none,
    logical_min := 0, logical_max := 0, count := 0, item_size := 0 }

/-- Source `ReportDescriptor._Locals` (hid.py lines 1054-1063). -/
structure Locals where
  usages : List Nat
  usage_min : Nat
  usage_max : Nat
  report_ID : Int
deriving DecidableEq

/-- Initial `_Locals` record. -/
def Locals.init : Locals :=
  { usages := [], usage_min := 0, usage_max := 0, report_ID := -1 }

/-- The parser state threaded through `_parse_item` (hid.py lines 1065-1092):
the three report maps (modelled as association lists keyed by report ID),
the `win8` flag, the Global stack (top element first), the three collection
counters `[application, physical, logical]`, and the current Local and
Global records. (`current_report` is never written by the source, so its
lookup always falls through to the report maps and it is not modelled.) -/
structure RDState where
  input_reports : List (Int × HidReport)
  output_reports : List (Int × HidReport)
  feature_reports : List (Int × HidReport)
  win8 : Bool
  global_stack : List Globals
  collection : Nat × Nat × Nat
  loc : Locals
  glob : Globals
deriving DecidableEq

/-- Initial parser state (hid.py lines 1066-1078). -/
def RDState.init : RDState :=
  { input_reports := [], output_reports := [], feature_reports := [],
    win8 := false, global_stack := [], collection := (0, 0, 0),
    loc := Locals.init, glob := Globals.init }

/-- Replace the binding of `k` in an association list, or append it
(Python dict assignment `report_lists[type][report_ID] = cur`). -/
def updateMap (m : List (Int × HidReport)) (k : Int) (v : HidReport) :
    List (Int × HidReport) :=
  match m with
  | [] => [(k, v)]
  | (k', v') :: rest =>
    if k' = k then (k, v) :: rest else (k', v') :: updateMap rest k v

/-- Source `ReportDescriptor._get_current_report` (hid.py lines 1115-1136) on one
report map: the stored report for the current report ID, or a fresh
`HidReport` with the current global application usage. -/
def getCurrentReport (m : List (Int × HidReport)) (report_ID : Int)
    (application : Option Nat) : HidReport :=
  match List.lookup report_ID m with
  | some r => r
  | none => HidReport.init report_ID application

end HidTools

namespace HidTools

/-- The Collection branch of `_parse_item` (hid.py lines 1157-1174):
`INV_COLLECTIONS[value]` raises `KeyError` outside {0, 1, 2}; otherwise the
matching counter is incremented and the scoped usage is bound to the last
local usage — the `IndexError` of `usages[-1]` on an empty list is caught,
leaving the scoped usage unchanged. The local usage list and range are then
reset. -/
def parseCollection (s : RDState) (value : Int) : Except PyErr RDState :=
  if value = 0 then       -- 'PHYSICAL'
    let col := (s.collection.1, s.collection.2.1 + 1, s.collection.2.2)
    let glob := match s.loc.usages.getLast? with
      | some u => { s.glob with physical := some u }
      | none => s.glob
    .ok { s with collection := col, glob := glob,
                 loc := { s.loc with usages := [], usage_min := 0, usage_max := 0 } }
  else if value = 1 then  -- 'APPLICATION'
    let col := (s.collection.1 + 1, s.collection.2.1, s.collection.2.2)
    let glob := match s.loc.usages.getLast? with
      | some u => { s.glob with application := some u }
      | none => s.glob
    .ok { s with collection := col, glob := glob,
                 loc := { s.loc with usages := [], usage_min := 0, usage_max := 0 } }
  else if value = 2 then  -- 'LOGICAL'
    let col := (s.collection.1, s.collection.2.1, s.collection.2.2 + 1)
    let glob := match s.loc.usages.getLast? with
      | some u => { s.glob with logical := some u }
      | none => s.glob
    .ok { s with collection := col, glob := glob,
                 loc := { s.loc with usages := [], usage_min := 0, usage_max := 0 } }
  else .error .keyError

/-- The Input/Output/Feature branch of `_parse_item`
(hid.py lines 1189-1212) acting on one report map. -/
def parseMainItem (s : RDState) (m : List (Int × HidReport)) (value : Int)
    (isFeature : Bool) : Except PyErr (List (Int × HidReport) × Bool × Locals) :=
  let cur := getCurrentReport m s.loc.report_ID s.glob.application
  match HidField.getHidFields s.loc.report_ID s.glob.logical s.glob.physical
      s.glob.application s.collection value.toNat s.glob.usage_page
      s.loc.usages s.loc.usage_min s.loc.usage_max s.glob.logical_min
      s.glob.logical_max s.glob.item_size s.glob.count with
  | .error e => .error e
  | .ok fs =>
    let cur := cur.extend fs
    let m := updateMap m s.loc.report_ID cur
    let win8 := s.win8 ||
      (isFeature && s.loc.usages.getLast? = some 0xff0000c5)
    .ok (m, win8, { s.loc with usages := [], usage_min := 0, usage_max := 0 })

/-- Source `ReportDescriptor._parse_item` (hid.py lines 1138-1212): one evaluator
transition. Items without a branch (End Collection, Designator/String items,
Delimiter, Unit, Unit Exponent, Physical Minimum/Maximum) leave the state
unchanged. Values stored into `Nat`-valued state components are non-negative
on every reachable item, hence `.toNat`. -/
def parseItem (s : RDState) (it : HidRDescItem) : Except PyErr RDState :=
  match List.lookup it.hid inv_hid with
  | none => .error .keyError
  | some item =>
    let value := it.value
    if item = "Report ID" then
      .ok { s with loc := { s.loc with report_ID := value } }
    else if item = "Push" then
      .ok { s with global_stack := s.glob :: s.global_stack }
    else if item = "Pop" then
      match s.global_stack with
      | [] => .error .indexError
      | g :: rest => .ok { s with glob := g, global_stack := rest }
    else if item = "Usage Page" then
      .ok { s with glob := { s.glob with usage_page := value.toNat <<< 16 },
                   loc := { s.loc with usages := [], usage_min := 0, usage_max := 0 } }
    else if item = "Collection" then
      parseCollection s value
    else if item = "Usage Minimum" then
      .ok { s with loc := { s.loc with usage_min := value.toNat ||| s.glob.usage_page } }
    else if item = "Usage Maximum" then
      .ok { s with loc := { s.loc with usage_max := value.toNat ||| s.glob.usage_page } }
    else if item = "Logical Minimum" then
      .ok { s with glob := { s.glob with logical_min := value } }
    else if item = "Logical Maximum" then
      .ok { s with glob := { s.glob with logical_max := value } }
    else if item = "Usage" then
      .ok { s with loc := { s.loc with usages := s.loc.usages ++ [value.toNat ||| s.glob.usage_page] } }
    else if item = "Report Count" then
      .ok { s with glob := { s.glob with count := value.toNat } }
    else if item = "Report Size" then
      .ok { s with glob := { s.glob with item_size := value.toNat } }
    else if item = "Input" then
      match parseMainItem s s.input_reports value false with
      | .error e => .error e
      | .ok (m, w, l) => .ok { s with input_reports := m, win8 := w, loc := l }
    else if item = "Output" then
      match parseMainItem s s.output_reports value false with
      | .error e => .error e
      | .ok (m, w, l) => .ok { s with output_reports := m, win8 := w, loc := l }
    else if item = "Feature" then
      match parseMainItem s s.feature_reports value true with
      | .error e => .error e
      | .ok (m, w, l) => .ok { s with feature_reports := m, win8 := w, loc := l }
    else
      .ok s

/-- Source `ReportDescriptor` (hid.py lines 999-1092) after construction: the item
list, the three report maps and the `win8` flag (the transient parser state
is deleted at the end of `__init__`). -/
structure ReportDescriptor where
  rdesc_items : List HidRDescItem
  input_reports : List (Int × HidReport)
  output_reports : List (Int × HidReport)
  feature_reports : List (Int × HidReport)
  win8 : Bool
deriving DecidableEq

/-- Source `ReportDescriptor.__init__` (hid.py lines 1065-1092): run `_parse_item`
over the items (an exception aborts construction). -/
def ReportDescriptor.ofItems (items : List HidRDescItem) :
    Except PyErr ReportDescriptor :=
  match items.foldlM parseItem RDState.init with
  | .error e => .error e
  | .ok s =>
    .ok { rdesc_items := items, input_reports := s.input_reports,
          output_reports := s.output_reports,
          feature_reports := s.feature_reports, win8 := s.win8 }

/-- Source `ReportDescriptor.from_bytes` (hid.py lines 1239-1261), list-of-bytes
form. -/
def ReportDescriptor.from_bytes (rdesc : List Nat) :
    Except PyErr ReportDescriptor :=
  match HidRDescItem.from_bytes rdesc with
  | .error e => .error e
  | .ok items => ReportDescriptor.ofItems items

/-- Source `ReportDescriptor.bytes` (hid.py lines 1229-1237): concatenation of the
items' byte serialisations. -/
def ReportDescriptor.bytes (d : ReportDescriptor) : List Nat :=
  (d.rdesc_items.map HidRDescItem.bytes).flatten

/-- Source `ReportDescriptor.get` (hid.py lines 1094-1107): the input report under
the exact report ID, else the one under -1; `None` when absent or when the
found report's byte size is below `reportSize`. -/
def ReportDescriptor.get (d : ReportDescriptor) (reportID : Int)
    (reportSize : Nat) : Option HidReport :=
  let report := match List.lookup reportID d.input_reports with
    | some r => some r
    | none => List.lookup (-1 : Int) d.input_reports
  match report with
  | none => none
  | some report => if report.size ≥ reportSize then some report else none

end HidTools

namespace HidTools

/-- Python's `b & ~mask` on a non-negative `b`: the bits of `mask` are
cleared from `b`. Since `b &&& mask` is bitwise contained in `b`, XOR-ing
it out is the same as AND-ing with the complement. -/
def maskOff (b mask : Nat) : Nat :=
  b ^^^ (b &&& mask)

/-- Result of `HidField._get_value`: the "no data" sentinel (the Python code
returns the list `["<.>"]`) or a numeric value. -/
inductive HidValue where
  | noData
  | val (v : Int)
deriving DecidableEq

/-- The `while` loop of `HidField._set_value` (hid.py lines 697-714) plus
its trailing partial-byte write, acting on the byte at `byte_idx`:
each full-byte step clears the bits from `bit_shift` up
(`report[byte_idx] &= ~(0xff << bit_shift)`, here `maskOff`) and ORs in
the low bits of `value`; the tail clears and writes only `n` bits. A Python
list assignment out of range raises `IndexError`. (The loop guard
`n - bits_to_set >= 0` is `bits_to_set ≤ n`; `bit_shift < 8` holds at every
call, so requiring `0 < bits_to_set` changes nothing.) -/
def setLoopF : Nat → List Nat → Nat → Nat → Nat → Nat → Except PyErr (List Nat)
  | 0, report, _, _, _, _ => .ok report
  | fuel + 1, report, byte_idx, bit_shift, n, value =>
    let bits_to_set := 8 - bit_shift
    if bits_to_set ≤ n ∧ 0 < bits_to_set then
      if byte_idx < report.length then
        let b := report.getD byte_idx 0
        let b := maskOff b (0xff <<< bit_shift)
        let b := b ||| ((value <<< bit_shift) &&& 0xff)
        setLoopF fuel (report.set byte_idx b) (byte_idx + 1) 0 (n - bits_to_set)
          (value >>> bits_to_set)
      else .error .indexError
    else if n ≠ 0 then
      if byte_idx < report.length then
        let bit_mask := 2 ^ n - 1
        let b := report.getD byte_idx 0
        let b := maskOff b (bit_mask <<< bit_shift)
        let b := b ||| (value <<< bit_shift)
        .ok (report.set byte_idx b)
      else .error .indexError
    else .ok report

/-- Entry point of the write loop: every iteration removes at least one of
the `n` bits still to be written, so `n + 1` units of fuel make the
fuel-exhausted branch unreachable. -/
def setLoop (report : List Nat) (byte_idx bit_shift n value : Nat) :
    Except PyErr (List Nat) :=
  setLoopF (n + 1) report byte_idx bit_shift n value

/-- Source `HidField._set_value` (hid.py lines 689-714): write `value` into the
`idx`-th slot of the field. Values above `(1 << size) - 1` are rejected with
a bare `Exception`. The value is non-negative at every reachable call
(callers pass `to_twos_comp` results), hence `Nat`. -/
def HidField._set_value (f : HidField) (report : List Nat) (value : Nat)
    (idx : Nat) : Except PyErr (List Nat) :=
  let start_bit := f.start + f.size * idx
  if value > 2 ^ f.size - 1 then .error .exn
  else setLoop report (start_bit / 8) (start_bit % 8) f.size value

/-- The loop of `HidField.set_values` (hid.py lines 720-724): for each index
in order, apply `to_twos_comp` when the logical minimum is negative, then
`_set_value`. -/
def setValuesGo (f : HidField) : List Nat → List Int → Nat → Except PyErr (List Nat)
  | report, [], _ => .ok report
  | report, v :: rest, idx =>
    let v := if f.logical_min < 0 then to_twos_comp v f.size else v
    match f._set_value report v.toNat idx with
    | .error e => .error e
    | .ok report' => setValuesGo f report' rest (idx + 1)

/-- Source `HidField.set_values` (hid.py lines 716-724): `Exception("-EINVAL")`
when the data length differs from the field count. -/
def HidField.set_values (f : HidField) (report : List Nat) (data : List Int) :
    Except PyErr (List Nat) :=
  if data.length ≠ f.count then .error .exn
  else setValuesGo f report data 0

/-- Source `HidField._get_value` (hid.py lines 668-684): slice the covering bytes
(`report[start_bit//8 : end_bit//8 + 1]`, Python slicing truncates
silently), return the sentinel when the slice is empty, else assemble
little-endian, shift to the bit offset, drop the bits above `size`
(`value - ((value >> size) << size)`), and sign-decode when
`logical_min < 0` and `size > 1`. -/
def HidField._get_value (f : HidField) (report : List Nat) (idx : Nat) :
    HidValue :=
  let start_bit := f.start + f.size * idx
  let end_bit := start_bit + f.size * (idx + 1)
  let data := (report.drop (start_bit / 8)).take (end_bit / 8 + 1 - start_bit / 8)
  if data.length = 0 then .noData
  else
    let value := assembleLE data
    let value := value >>> (start_bit % 8)
    let value := value - ((value >>> f.size) <<< f.size)
    if f.logical_min < 0 ∧ f.size > 1 then .val (twos_comp (value : Int) f.size)
    else .val (value : Int)

/-- Source `HidField.get_values` (hid.py lines 686-687). -/
def HidField.get_values (f : HidField) (report : List Nat) : List HidValue :=
  (List.range f.count).map (f._get_value report)

/-- Bit `j` of a byte buffer, LSB-first within each byte (the bit order used
by the field packer). -/
def bitAt (report : List Nat) (j : Nat) : Bool :=
  Nat.testBit (report.getD (j / 8) 0) (j % 8)

end HidTools

namespace HidTools

/-- The number of hex digits of a natural number, i.e. `len(f'{n:x}')` for
`n >= 0` (one digit for 0). One digit is produced per division by 16, so
`n` itself bounds the recursion depth and the fuel-exhausted branch is
unreachable. -/
def hexLenF : Nat → Nat → Nat
  | 0, _ => 1
  | fuel + 1, n => if n < 16 then 1 else 1 + hexLenF fuel (n / 16)

/-- Python `len(f'\x7bn:x\x7d')` for a natural number. -/
def hexLen (n : Nat) : Nat :=
  hexLenF (n + 1) n

/-- Python `len(f'\x7bv:x\x7d')` for an integer: negative values are rendered with
a leading sign character. -/
def pyHexLen (v : Int) : Nat :=
  if v < 0 then 1 + hexLen (-v).toNat else hexLen v.toNat

/-- The payload-width choice of `HidRDescItem.from_human_descr`
(hid.py lines 509-523): `bit_size = len(f'{value + 1:x}') * 4`, then 0 bytes
when there is no argument, 1 when `bit_size <= 8`, 2 when `<= 16`, else 4. -/
def payloadCount (value : Option Int) : Nat :=
  match value with
  | none => 0
  | some v =>
    let bit_size := pyHexLen (v + 1) * 4
    if bit_size ≤ 8 then 1 else if bit_size ≤ 16 then 2 else 4

/-- The `vs` loop of `from_human_descr` (hid.py lines 529-533): the low
`k` bytes of `value`, LSB first (`v & 0xff` then `v >>= 8`, Python
arithmetic shift). -/
def lowBytes (v : Int) : Nat → List Nat
  | 0 => []
  | k + 1 => (v % 256).toNat :: lowBytes (v.fdiv 256) k

/-- The tag `hid_items[hid_type[name]][name]` of `from_human_descr`
(hid.py line 514), a `KeyError` for an unknown name. -/
def hid_tag (name : String) : Option Nat :=
  (inv_hid.find? fun p => p.2 = name).map (·.1)

/-- Source `HidRDescItem.from_human_descr` (hid.py lines 402-538), restricted to
lines whose parenthesised argument parses as an integer (decimal or `0x`
hex; e.g. `Logical Minimum (-127)` gives `name = "Logical Minimum"`,
`data = -127`) or that have no argument (`data = none`). The table-lookup
cases where the argument stays a string (Usage Page/Usage/Collection/
Input/Output/Feature/Unit by name) feed the same width-selection and byte
construction with the value they produce. -/
def HidRDescItem.from_human_descr_num (name : String) (data : Option Int) :
    Except PyErr HidRDescItem :=
  let bit_size := match data with
    | none => 0
    | some v => pyHexLen (v + 1) * 4
  let value := data.getD 0
  match hid_tag name with
  | none => .error .keyError
  | some tag =>
    let v_count := if bit_size = 0 then 0
      else if bit_size ≤ 8 then 1 else if bit_size ≤ 16 then 2 else 4
    let value :=
      if name = "Unit Exponent" ∧ value < 0 then
        to_twos_comp (value + 16) (v_count * 8)
      else value
    let vs := lowBytes value v_count
    mkHidRDescItem tag value vs

end HidTools

namespace HidTools

/-- Helper `maskOff b m` clears exactly the bits of `m` from `b`. -/
theorem testBit_maskOff (b m i : Nat) :
    (maskOff b m).testBit i = (b.testBit i && !(m.testBit i)) := by
  simp only [maskOff, Nat.testBit_xor, Nat.testBit_land]
  cases b.testBit i <;> cases m.testBit i <;> rfl

/-- A number all of whose bits from `n` up are clear is below `2 ^ n`. -/
theorem lt_two_pow_of_testBit_false {x n : Nat}
    (h : ∀ i, n ≤ i → x.testBit i = false) : x < 2 ^ n := by
  have hx : x = x % 2 ^ n := by
    refine Nat.eq_of_testBit_eq fun i => ?_
    rcases Nat.lt_or_ge i n with hi | hi
    · simp [Nat.testBit_mod_two_pow, hi]
    · simp [Nat.testBit_mod_two_pow, Nat.not_lt.mpr hi, h i hi]
  rw [hx]
  exact Nat.mod_lt _ (Nat.two_pow_pos n)

/-- Bits at or above the width of a number are clear. -/
theorem testBit_false_of_lt {x n i : Nat} (hx : x < 2 ^ n) (hi : n ≤ i) :
    x.testBit i = false :=
  Nat.testBit_lt_two_pow (lt_of_lt_of_le hx (Nat.pow_le_pow_right (by norm_num) hi))

theorem testBit_255 (k : Nat) : (0xff : Nat).testBit k = decide (k < 8) := by
  have h : (0xff : Nat) = 2 ^ 8 - 1 := by norm_num
  rw [h, Nat.testBit_two_pow_sub_one]

theorem bitAt_set_of_ne (r : List Nat) (bi b j : Nat) (h : j / 8 ≠ bi) :
    bitAt (r.set bi b) j = bitAt r j := by
  simp [bitAt, List.getD_eq_getElem?_getD, List.getElem?_set_ne (Ne.symm h)]

theorem bitAt_set_self (r : List Nat) (bi b j : Nat) (hbi : bi < r.length)
    (h : j / 8 = bi) : bitAt (r.set bi b) j = b.testBit (j % 8) := by
  simp [bitAt, List.getD_eq_getElem?_getD, h, List.getElem?_set_self hbi]

theorem bitAt_getD (r : List Nat) (j : Nat) :
    bitAt r j = (r.getD (j / 8) 0).testBit (j % 8) := rfl

/-- A successful run of the write loop changes exactly the `n` bits starting
at bit `8 * byte_idx + bit_shift`, setting them to the bits of `value`. -/
theorem setLoopF_ok_spec :
    ∀ (fuel n : Nat) (r : List Nat) (bi shift value : Nat) (r' : List Nat),
      n < fuel → shift < 8 → value < 2 ^ n →
      setLoopF fuel r bi shift n value = .ok r' →
      r'.length = r.length ∧
        ∀ j, bitAt r' j =
          if 8 * bi + shift ≤ j ∧ j < 8 * bi + shift + n
          then value.testBit (j - (8 * bi + shift))
          else bitAt r j := by
  intro fuel
  induction fuel with
  | zero => intro n r bi shift value r' hn; omega
  | succ fuel ih =>
    intro n r bi shift value r' hn hshift hval heq
    rw [setLoopF] at heq
    by_cases hA : 8 - shift ≤ n
    · -- full-byte write, then recurse on the remaining bits
      rw [if_pos ⟨hA, by omega⟩] at heq
      by_cases hbi : bi < r.length
      · rw [if_pos hbi] at heq
        set b' := maskOff (r.getD bi 0) (0xff <<< shift) |||
          ((value <<< shift) &&& 0xff) with hb'
        have hval' : value >>> (8 - shift) < 2 ^ (n - (8 - shift)) := by
          rw [Nat.shiftRight_eq_div_pow]
          apply Nat.div_lt_of_lt_mul
          rw [← Nat.pow_add]
          have he : 8 - shift + (n - (8 - shift)) = n := by omega
          rw [he]
          exact hval
        obtain ⟨hlen, hbits⟩ := ih (n - (8 - shift)) (r.set bi b') (bi + 1) 0
          (value >>> (8 - shift)) r' (by omega) (by omega) hval' heq
        refine ⟨by rw [hlen, List.length_set], fun j => ?_⟩
        rw [hbits j]
        by_cases hj1 : 8 * (bi + 1) + 0 ≤ j ∧ j < 8 * (bi + 1) + 0 + (n - (8 - shift))
        · rw [if_pos hj1, if_pos (by omega : 8 * bi + shift ≤ j ∧ j < 8 * bi + shift + n),
              Nat.testBit_shiftRight]
          congr 1
          omega
        · rw [if_neg hj1]
          by_cases hj2 : j / 8 = bi
          · rw [bitAt_set_self r bi b' j hbi hj2, hb']
            have hp8 : j % 8 < 8 := Nat.mod_lt _ (by norm_num)
            have hjval : j = 8 * bi + j % 8 := by omega
            rw [Nat.testBit_lor, testBit_maskOff, Nat.testBit_land,
                Nat.testBit_shiftLeft, Nat.testBit_shiftLeft, testBit_255,
                testBit_255 (j % 8)]
            by_cases hps : shift ≤ j % 8
            · rw [if_pos (by omega : 8 * bi + shift ≤ j ∧ j < 8 * bi + shift + n)]
              have e1 : decide (j % 8 ≥ shift) = true := by simp [hps]
              have e2 : decide (j % 8 - shift < 8) = true := by simp; omega
              have e3 : decide (j % 8 < 8) = true := by simp [hp8]
              rw [e1, e2, e3]
              have e4 : j - (8 * bi + shift) = j % 8 - shift := by omega
              rw [e4]
              cases (r.getD bi 0).testBit (j % 8) <;>
                cases value.testBit (j % 8 - shift) <;> rfl
            · rw [if_neg (by omega : ¬(8 * bi + shift ≤ j ∧ j < 8 * bi + shift + n))]
              have e1 : decide (j % 8 ≥ shift) = false := by simp; omega
              rw [e1, bitAt_getD r j, hj2]
              cases (r.getD bi 0).testBit (j % 8) <;> rfl
          · rw [bitAt_set_of_ne r bi b' j hj2]
            rw [if_neg (by omega : ¬(8 * bi + shift ≤ j ∧ j < 8 * bi + shift + n))]
      · rw [if_neg hbi] at heq
        cases heq
    · -- tail: fewer than a byte's worth of bits remain
      have htail : n < 8 - shift := by omega
      rw [if_neg (by omega)] at heq
      by_cases hn0 : n ≠ 0
      · rw [if_pos hn0] at heq
        by_cases hbi : bi < r.length
        · rw [if_pos hbi] at heq
          cases heq
          refine ⟨List.length_set .., fun j => ?_⟩
          by_cases hj2 : j / 8 = bi
          · rw [bitAt_set_self r bi _ j hbi hj2]
            have hp8 : j % 8 < 8 := Nat.mod_lt _ (by norm_num)
            have hjval : j = 8 * bi + j % 8 := by omega
            rw [Nat.testBit_lor, testBit_maskOff,
                Nat.testBit_shiftLeft, Nat.testBit_shiftLeft,
                Nat.testBit_two_pow_sub_one]
            by_cases hps : shift ≤ j % 8 ∧ j % 8 < shift + n
            · rw [if_pos (by omega : 8 * bi + shift ≤ j ∧ j < 8 * bi + shift + n)]
              have e1 : decide (j % 8 ≥ shift) = true := by simp [hps.1]
              have e2 : decide (j % 8 - shift < n) = true := by simp; omega
              rw [e1, e2]
              have e4 : j - (8 * bi + shift) = j % 8 - shift := by omega
              rw [e4]
              cases (r.getD bi 0).testBit (j % 8) <;>
                cases value.testBit (j % 8 - shift) <;> rfl
            · rw [if_neg (by omega : ¬(8 * bi + shift ≤ j ∧ j < 8 * bi + shift + n))]
              rw [bitAt_getD r j, hj2]
              by_cases hps1 : shift ≤ j % 8
              · have hout : n ≤ j % 8 - shift := by omega
                have e1 : decide (j % 8 ≥ shift) = true := by simp [hps1]
                have e2 : decide (j % 8 - shift < n) = false := by simp; omega
                have e3 : value.testBit (j % 8 - shift) = false :=
                  testBit_false_of_lt hval hout
                rw [e1, e2, e3]
                cases (r.getD bi 0).testBit (j % 8) <;> rfl
              · have e1 : decide (j % 8 ≥ shift) = false := by simp; omega
                rw [e1]
                cases (r.getD bi 0).testBit (j % 8) <;> rfl
          · rw [bitAt_set_of_ne r bi _ j hj2]
            rw [if_neg (by omega : ¬(8 * bi + shift ≤ j ∧ j < 8 * bi + shift + n))]
        · rw [if_neg hbi] at heq
          cases heq
      · rw [if_neg hn0] at heq
        cases heq
        exact ⟨rfl, fun j => by rw [if_neg (by omega)]⟩

end HidTools

namespace HidTools

/-- The write loop succeeds whenever the buffer covers the written range. -/
theorem setLoopF_isOk :
    ∀ (fuel n : Nat) (r : List Nat) (bi shift value : Nat),
      n < fuel → shift < 8 → 8 * bi + shift + n ≤ 8 * r.length →
      ∃ r', setLoopF fuel r bi shift n value = .ok r' := by
  intro fuel
  induction fuel with
  | zero => intro n r bi shift value hn; omega
  | succ fuel ih =>
    intro n r bi shift value hn hshift hcov
    rw [setLoopF]
    by_cases hA : 8 - shift ≤ n
    · rw [if_pos ⟨hA, by omega⟩]
      have hbi : bi < r.length := by omega
      rw [if_pos hbi]
      exact ih (n - (8 - shift)) _ (bi + 1) 0 _ (by omega) (by omega)
        (by rw [List.length_set]; omega)
    · rw [if_neg (by omega)]
      by_cases hn0 : n ≠ 0
      · rw [if_pos hn0]
        have hbi : bi < r.length := by omega
        rw [if_pos hbi]
        exact ⟨_, rfl⟩
      · rw [if_neg hn0]
        exact ⟨_, rfl⟩

/-- The write loop keeps all buffer entries below 256. -/
theorem setLoopF_lt256 :
    ∀ (fuel n : Nat) (r : List Nat) (bi shift value : Nat) (r' : List Nat),
      n < fuel → shift < 8 → value < 2 ^ n →
      setLoopF fuel r bi shift n value = .ok r' →
      (∀ b ∈ r, b < 256) → ∀ b ∈ r', b < 256 := by
  intro fuel
  induction fuel with
  | zero => intro n r bi shift value r' hn; omega
  | succ fuel ih =>
    intro n r bi shift value r' hn hshift hval heq hr
    rw [setLoopF] at heq
    by_cases hA : 8 - shift ≤ n
    · rw [if_pos ⟨hA, by omega⟩] at heq
      by_cases hbi : bi < r.length
      · rw [if_pos hbi] at heq
        have hval' : value >>> (8 - shift) < 2 ^ (n - (8 - shift)) := by
          rw [Nat.shiftRight_eq_div_pow]
          apply Nat.div_lt_of_lt_mul
          rw [← Nat.pow_add]
          have he : 8 - shift + (n - (8 - shift)) = n := by omega
          rw [he]
          exact hval
        refine ih (n - (8 - shift)) _ (bi + 1) 0 _ r' (by omega) (by omega)
          hval' heq fun b hb => ?_
        rcases List.mem_or_eq_of_mem_set hb with hb | hb
        · exact hr b hb
        · subst hb
          have h256 : (256 : Nat) = 2 ^ 8 := by norm_num
          rw [h256]
          refine lt_two_pow_of_testBit_false fun i hi => ?_
          rw [Nat.testBit_lor, testBit_maskOff, Nat.testBit_land, testBit_255]
          have hbmem : r.getD bi 0 ∈ r := by
            rw [List.getD_eq_getElem?_getD, List.getElem?_eq_getElem hbi]
            exact List.getElem_mem ..
          rw [testBit_false_of_lt (hr _ hbmem) hi]
          simp
          omega
      · rw [if_neg hbi] at heq
        cases heq
    · rw [if_neg (by omega)] at heq
      by_cases hn0 : n ≠ 0
      · rw [if_pos hn0] at heq
        by_cases hbi : bi < r.length
        · rw [if_pos hbi] at heq
          cases heq
          intro b hb
          rcases List.mem_or_eq_of_mem_set hb with hb | hb
          · exact hr b hb
          · subst hb
            have h256 : (256 : Nat) = 2 ^ 8 := by norm_num
            rw [h256]
            refine lt_two_pow_of_testBit_false fun i hi => ?_
            rw [Nat.testBit_lor, testBit_maskOff, Nat.testBit_shiftLeft,
                Nat.testBit_shiftLeft]
            have hbmem : r.getD bi 0 ∈ r := by
              rw [List.getD_eq_getElem?_getD, List.getElem?_eq_getElem hbi]
              exact List.getElem_mem ..
            rw [testBit_false_of_lt (hr _ hbmem) hi,
                testBit_false_of_lt hval (by omega : n ≤ i - shift)]
            simp
        · rw [if_neg hbi] at heq
          cases heq
      · rw [if_neg hn0] at heq
        cases heq
        exact hr

/-- A successful `_set_value` writes the bits of `value` into
`[start_bit, start_bit + size)` and preserves everything else. -/
theorem set_value_ok_spec (f : HidField) (report : List Nat) (value idx : Nat)
    (report' : List Nat)
    (hval : value ≤ 2 ^ f.size - 1)
    (hok : f._set_value report value idx = .ok report') :
    report'.length = report.length ∧
      ∀ j, bitAt report' j =
        if f.start + f.size * idx ≤ j ∧ j < f.start + f.size * idx + f.size
        then value.testBit (j - (f.start + f.size * idx))
        else bitAt report j := by
  rw [HidField._set_value, if_neg (by omega)] at hok
  rw [setLoop] at hok
  have hlt : value < 2 ^ f.size := by
    have := Nat.two_pow_pos f.size
    omega
  obtain ⟨hlen, hbits⟩ := setLoopF_ok_spec (f.size + 1) f.size report
    ((f.start + f.size * idx) / 8) ((f.start + f.size * idx) % 8) value report'
    (by omega) (Nat.mod_lt _ (by norm_num)) hlt hok
  have hdm : 8 * ((f.start + f.size * idx) / 8) + (f.start + f.size * idx) % 8
      = f.start + f.size * idx := by omega
  rw [hdm] at hbits
  exact ⟨hlen, hbits⟩

end HidTools

namespace HidTools

/-- Little-endian assembly realises the buffer's bit sequence, provided all
entries are bytes. -/
theorem testBit_assembleLE (r : List Nat) (hr : ∀ b ∈ r, b < 256) (j : Nat) :
    (assembleLE r).testBit j = bitAt r j := by
  induction r generalizing j with
  | nil => simp [assembleLE, bitAt]
  | cons b rest ih =>
    have hb : b < 256 := hr b (by simp)
    have hrest : ∀ x ∈ rest, x < 256 := fun x hx => hr x (by simp [hx])
    rw [assembleLE, Nat.testBit_lor, Nat.testBit_shiftLeft]
    rcases Nat.lt_or_ge j 8 with hj | hj
    · have e1 : decide (j ≥ 8) = false := by simp; omega
      rw [e1]
      have hdiv : j / 8 = 0 := by omega
      have hmod : j % 8 = j := by omega
      simp [bitAt, hdiv, hmod]
    · have e1 : decide (j ≥ 8) = true := by simp [hj]
      have h256 : (256 : Nat) = 2 ^ 8 := by norm_num
      rw [e1, testBit_false_of_lt (h256 ▸ hb) hj, ih hrest (j - 8)]
      have hdiv : j / 8 = (j - 8) / 8 + 1 := by omega
      have hmod : (j - 8) % 8 = j % 8 := by omega
      simp [bitAt, hdiv, hmod, List.getD_cons_succ]

theorem bitAt_take (r : List Nat) (m j : Nat) :
    bitAt (r.take m) j = (decide (j < 8 * m) && bitAt r j) := by
  unfold bitAt
  rw [List.getD_eq_getElem?_getD, List.getD_eq_getElem?_getD, List.getElem?_take]
  by_cases hj : j / 8 < m
  · rw [if_pos hj]
    have : decide (j < 8 * m) = true := by simp; omega
    rw [this, Bool.true_and]
  · rw [if_neg hj]
    have : decide (j < 8 * m) = false := by simp; omega
    rw [this, Bool.false_and]
    simp [Nat.zero_testBit]

theorem bitAt_drop (r : List Nat) (a j : Nat) :
    bitAt (r.drop a) j = bitAt r (8 * a + j) := by
  unfold bitAt
  rw [List.getD_eq_getElem?_getD, List.getD_eq_getElem?_getD, List.getElem?_drop]
  have h1 : (8 * a + j) / 8 = a + j / 8 := by omega
  have h2 : (8 * a + j) % 8 = j % 8 := by omega
  rw [h1, h2]

/-- The unsigned `n`-bit value starting at bit offset `a` of a buffer. -/
def bitsVal (report : List Nat) (a n : Nat) : Nat :=
  (assembleLE report >>> a) % 2 ^ n

theorem testBit_bitsVal (report : List Nat) (hr : ∀ b ∈ report, b < 256)
    (a n j : Nat) :
    (bitsVal report a n).testBit j =
      (decide (j < n) && bitAt report (a + j)) := by
  rw [bitsVal, Nat.testBit_mod_two_pow, Nat.testBit_shiftRight,
      testBit_assembleLE report hr]

/-- Identity `value - ((value >> n) << n)` is `value % 2 ^ n`. -/
theorem sub_shift_eq_mod (x n : Nat) : x - ((x >>> n) <<< n) = x % 2 ^ n := by
  rw [Nat.shiftRight_eq_div_pow, Nat.shiftLeft_eq, Nat.mul_comm]
  have h := Nat.div_add_mod x (2 ^ n)
  omega

/-- On a buffer of bytes that covers the read range, `_get_value` returns
the `size`-bit value at the slot's bit offset, sign-decoded when
`logical_min < 0` and `size > 1`. -/
theorem get_value_eq (f : HidField) (report : List Nat) (idx : Nat)
    (hr : ∀ b ∈ report, b < 256) (hsize : 1 ≤ f.size)
    (hcov : f.start + f.size * idx + f.size ≤ 8 * report.length) :
    f._get_value report idx =
      if f.logical_min < 0 ∧ f.size > 1
      then .val (twos_comp ((bitsVal report (f.start + f.size * idx) f.size : Nat) : Int) f.size)
      else .val ((bitsVal report (f.start + f.size * idx) f.size : Nat) : Int) := by
  rw [HidField._get_value]
  set sb := f.start + f.size * idx with hsb
  set eb := sb + f.size * (idx + 1) with heb
  set data := (report.drop (sb / 8)).take (eb / 8 + 1 - sb / 8) with hdata
  have hlen : sb / 8 < report.length := by omega
  have hdne : data.length ≠ 0 := by
    rw [hdata, List.length_take, List.length_drop]
    have hba : sb / 8 ≤ eb / 8 := by omega
    omega
  rw [if_neg hdne]
  have hdr : ∀ b ∈ data, b < 256 := fun b hb =>
    hr b (List.mem_of_mem_drop (List.mem_of_mem_take hb))
  have hmul : f.size * (idx + 1) = f.size * idx + f.size := by ring
  dsimp only
  rw [sub_shift_eq_mod]
  have hkey : (assembleLE data >>> (sb % 8)) % 2 ^ f.size = bitsVal report sb f.size := by
    refine Nat.eq_of_testBit_eq fun j => ?_
    rw [Nat.testBit_mod_two_pow, Nat.testBit_shiftRight,
        testBit_assembleLE data hdr, testBit_bitsVal report hr]
    by_cases hj : j < f.size
    · have e1 : decide (j < f.size) = true := by simp [hj]
      rw [e1, Bool.true_and, Bool.true_and, hdata, bitAt_take, bitAt_drop]
      have e2 : decide (sb % 8 + j < 8 * (eb / 8 + 1 - sb / 8)) = true := by
        simp
        omega
      rw [e2, Bool.true_and]
      have e3 : 8 * (sb / 8) + (sb % 8 + j) = sb + j := by omega
      rw [e3]
    · have e1 : decide (j < f.size) = false := by simp [hj]
      rw [e1, Bool.false_and, Bool.false_and]
  rw [hkey]

end HidTools

namespace HidTools

/-- C6 (amended): `_get_value` (a total function — it never raises) returns
the "no data" sentinel rendered as `<.>` iff not even the first covering
byte exists, i.e. iff `start_bit / 8` is at or beyond the buffer length; a
partially covered read returns a value computed from the available bytes
(see the counterexample). -/
theorem claim_C6_amended (f : HidField) (report : List Nat) (idx : Nat) :
    f._get_value report idx = .noData ↔
      report.length ≤ (f.start + f.size * idx) / 8 := by
  rw [HidField._get_value]
  set sb := f.start + f.size * idx with hsb
  set eb := sb + f.size * (idx + 1) with heb
  set data := (report.drop (sb / 8)).take (eb / 8 + 1 - sb / 8) with hdata
  have hdlen : data.length = min (eb / 8 + 1 - sb / 8) (report.length - sb / 8) := by
    rw [hdata, List.length_take, List.length_drop]
  have hba : sb / 8 ≤ eb / 8 := by
    have : sb ≤ eb := by omega
    omega
  by_cases hd : data.length = 0
  · rw [if_pos hd]
    have : report.length ≤ sb / 8 := by omega
    simp [this]
  · rw [if_neg hd]
    have hgt : ¬ report.length ≤ sb / 8 := by omega
    constructor
    · intro h
      split at h <;> cases h
    · intro h
      exact absurd h hgt

/-- Lemma `_set_value` keeps all buffer entries below 256. -/
theorem set_value_lt256 (f : HidField) (report : List Nat) (value idx : Nat)
    (report' : List Nat)
    (hval : value ≤ 2 ^ f.size - 1)
    (hok : f._set_value report value idx = .ok report')
    (hr : ∀ b ∈ report, b < 256) : ∀ b ∈ report', b < 256 := by
  rw [HidField._set_value, if_neg (by omega), setLoop] at hok
  have hlt : value < 2 ^ f.size := by
    have := Nat.two_pow_pos f.size
    omega
  exact setLoopF_lt256 (f.size + 1) f.size report _ _ value report'
    (by omega) (Nat.mod_lt _ (by norm_num)) hlt hok hr

/-- Lemma `_set_value` succeeds whenever the buffer covers the written slot. -/
theorem set_value_isOk (f : HidField) (report : List Nat) (value idx : Nat)
    (hval : value ≤ 2 ^ f.size - 1)
    (hcov : f.start + f.size * idx + f.size ≤ 8 * report.length) :
    ∃ report', f._set_value report value idx = .ok report' := by
  rw [HidField._set_value, if_neg (by omega), setLoop]
  exact setLoopF_isOk (f.size + 1) f.size report _ _ value
    (by omega) (Nat.mod_lt _ (by norm_num)) (by omega)

theorem to_twos_comp_nonneg (v : Int) (n : Nat) : 0 ≤ to_twos_comp v n :=
  Int.emod_nonneg v (by positivity)

theorem to_twos_comp_toNat_lt (v : Int) (n : Nat) :
    (to_twos_comp v n).toNat < 2 ^ n := by
  have h1 := to_twos_comp_nonneg v n
  have h2 : to_twos_comp v n < ((2 ^ n : Nat) : Int) := by
    push_cast
    exact Int.emod_lt_of_pos v (by positivity)
  omega

/-- A successful `set_values` loop starting at slot `idx0` on a byte buffer
writes the two's-complement encodings of the data into the consecutive
slots `idx0, idx0 + 1, …` and leaves every other bit unchanged. -/
theorem setValuesGo_spec (f : HidField) :
    ∀ (data : List Int) (report : List Nat) (idx0 : Nat) (report' : List Nat),
      f.logical_min < 0 →
      (∀ b ∈ report, b < 256) →
      setValuesGo f report data idx0 = .ok report' →
      report'.length = report.length ∧ (∀ b ∈ report', b < 256) ∧
      (∀ k, k < data.length → ∀ j, j < f.size →
        bitAt report' (f.start + f.size * (idx0 + k) + j) =
          Nat.testBit (to_twos_comp (data.getD k 0) f.size).toNat j) ∧
      (∀ j, j < f.start + f.size * idx0 ∨
          f.start + f.size * (idx0 + data.length) ≤ j →
        bitAt report' j = bitAt report j) := by
  intro data
  induction data with
  | nil =>
    intro report idx0 report' hmin hr heq
    rw [setValuesGo] at heq
    cases heq
    exact ⟨rfl, hr, fun k hk => absurd hk (by simp), fun j _ => rfl⟩
  | cons v rest ih =>
    intro report idx0 report' hmin hr heq
    rw [setValuesGo, if_pos hmin] at heq
    set w : Nat := (to_twos_comp v f.size).toNat with hw
    have hwlt : w ≤ 2 ^ f.size - 1 := by
      have := to_twos_comp_toNat_lt v f.size
      omega
    cases hset : f._set_value report w idx0 with
    | error e => rw [hset] at heq; cases heq
    | ok r1 =>
      rw [hset] at heq
      obtain ⟨hlen1, hbits1⟩ := set_value_ok_spec f report w idx0 r1 hwlt hset
      have hr1 : ∀ b ∈ r1, b < 256 := set_value_lt256 f report w idx0 r1 hwlt hset hr
      obtain ⟨hlen2, hr2, hslots2, hframe2⟩ := ih r1 (idx0 + 1) report' hmin hr1 heq
      have hmul1 : f.size * (idx0 + 1) = f.size * idx0 + f.size := by ring
      refine ⟨hlen2.trans hlen1, hr2, ?_, ?_⟩
      · intro k hk j hj
        rcases k with _ | k
        · -- slot idx0: written by the head, untouched by the tail
          simp only [Nat.add_zero]
          have hfr : bitAt report' (f.start + f.size * idx0 + j) =
              bitAt r1 (f.start + f.size * idx0 + j) := by
            apply hframe2
            left
            omega
          rw [hfr, hbits1]
          rw [if_pos (by constructor <;> omega)]
          simp only [List.getD_cons_zero]
          congr 1
          omega
        · -- slots idx0+1+k: written by the tail
          have he : idx0 + (k + 1) = idx0 + 1 + k := by omega
          rw [he]
          have := hslots2 k (by simpa using hk) j hj
          simpa using this
      · intro j hj
        have hmul2 : f.size * (idx0 + (rest.length + 1)) =
            f.size * (idx0 + 1 + rest.length) := by ring
        have h1 : bitAt report' j = bitAt r1 j := by
          apply hframe2
          rcases hj with hj | hj
          · left; omega
          · right
            simp only [List.length_cons] at hj
            omega
        rw [h1, hbits1]
        rw [if_neg ?_]
        have hmono : f.size * (idx0 + 1) ≤ f.size * (idx0 + (rest.length + 1)) :=
          Nat.mul_le_mul_left _ (by omega)
        simp only [List.length_cons] at hj
        omega

end HidTools

namespace HidTools

/-- Decoding the unsigned `n`-bit encoding of `v` as two's-complement gives
back `v`, for `v` in the representable range. -/
theorem twos_comp_to_twos_comp (v : Int) (n : Nat) (hn : 1 ≤ n)
    (hlo : -(2 ^ (n - 1) : Int) ≤ v) (hhi : v < 2 ^ (n - 1)) :
    twos_comp (to_twos_comp v n) n = v := by
  have hpow : (2 ^ n : Int) = 2 ^ (n - 1) * 2 := by
    rw [← pow_succ]
    congr 1
    omega
  have hppos : (0 : Int) < 2 ^ (n - 1) := by positivity
  rcases le_or_lt 0 v with hv | hv
  · have hweq : to_twos_comp v n = v := by
      rw [to_twos_comp]
      exact Int.emod_eq_of_lt hv (by omega)
    rw [twos_comp, hweq]
    rw [if_neg ?_]
    rintro ⟨-, hbit⟩
    rw [Int.fdiv_eq_ediv v (by positivity), Int.ediv_eq_zero_of_lt hv hhi] at hbit
    simp at hbit
  · have hweq : to_twos_comp v n = v + 2 ^ n := by
      rw [to_twos_comp]
      have h1 : v % (2 ^ n : Int) = (v + 2 ^ n) % 2 ^ n := by
        simp [Int.add_mul_emod_self_left]
      rw [h1]
      exact Int.emod_eq_of_lt (by omega) (by omega)
    rw [twos_comp, hweq]
    have hdiv : (v + 2 ^ n).fdiv (2 ^ (n - 1) : Int) = 1 := by
      rw [Int.fdiv_eq_ediv _ (by positivity)]
      have hsplit : v + 2 ^ n = (v + 2 ^ (n - 1)) + 1 * 2 ^ (n - 1) := by
        rw [hpow]; ring
      rw [hsplit, Int.add_mul_ediv_right _ _ (by omega),
          Int.ediv_eq_zero_of_lt (by omega) (by omega)]
      norm_num
    rw [if_pos ⟨by omega, by rw [hdiv]; norm_num⟩]
    omega

/-- C5 (amended): for every field with `logical_min < 0`, bit size 2..32
(any size at least 2) whose logical range fits the bit size, writing
in-range values into a sufficiently large zeroed buffer with `set_values`
and reading back with `get_values` returns exactly the written values. For
bit size 1 the read is unsigned (see the counterexample). -/
theorem claim_C5_amended
    (f : HidField) (data : List Int) (L : Nat) (report' : List Nat)
    (hmin : f.logical_min < 0) (hsize : 2 ≤ f.size)
    (hlo : -(2 ^ (f.size - 1) : Int) ≤ f.logical_min)
    (hhi : f.logical_max < 2 ^ (f.size - 1))
    (hdata : ∀ v ∈ data, f.logical_min ≤ v ∧ v ≤ f.logical_max)
    (hcov : f.start + f.size * f.count ≤ 8 * L)
    (hok : f.set_values (List.replicate L 0) data = .ok report') :
    f.get_values report' = data.map HidValue.val := by
  rw [HidField.set_values] at hok
  by_cases hL : data.length ≠ f.count
  · rw [if_pos hL] at hok
    cases hok
  · rw [if_neg hL] at hok
    push_neg at hL
    have hrep : ∀ b ∈ List.replicate L 0, b < 256 := fun b hb => by
      rw [List.eq_of_mem_replicate hb]
      norm_num
    obtain ⟨hlen2, hr2, hslots, hframe⟩ :=
      setValuesGo_spec f data (List.replicate L 0) 0 report' hmin hrep hok
    rw [List.length_replicate] at hlen2
    refine List.ext_getElem (by simp [HidField.get_values, hL]) fun k hk1 hk2 => ?_
    simp only [HidField.get_values, List.length_range, List.length_map] at hk1 hk2
    simp only [HidField.get_values, List.getElem_map, List.getElem_range]
    have hkd : k < data.length := by omega
    have hcovk : f.start + f.size * k + f.size ≤ 8 * report'.length := by
      have h1 : f.size * k + f.size = f.size * (k + 1) := by ring
      have h2 : f.size * (k + 1) ≤ f.size * f.count :=
        Nat.mul_le_mul_left _ (by omega)
      omega
    rw [get_value_eq f report' k hr2 (by omega) hcovk,
        if_pos ⟨hmin, by omega⟩]
    have hbv : bitsVal report' (f.start + f.size * k) f.size =
        (to_twos_comp data[k] f.size).toNat := by
      refine Nat.eq_of_testBit_eq fun j => ?_
      rw [testBit_bitsVal report' hr2]
      by_cases hj : j < f.size
      · have e1 : decide (j < f.size) = true := by simp [hj]
        rw [e1, Bool.true_and]
        have := hslots k hkd j hj
        rw [Nat.zero_add] at this
        rw [this]
        congr 1
        rw [List.getD_eq_getElem?_getD, List.getElem?_eq_getElem hkd]
        rfl
      · have e1 : decide (j < f.size) = false := by simp [hj]
        rw [e1, Bool.false_and]
        exact (testBit_false_of_lt (to_twos_comp_toNat_lt data[k] f.size)
          (by omega)).symm
    rw [hbv, Int.toNat_of_nonneg (to_twos_comp_nonneg data[k] f.size)]
    have hmem : data[k] ∈ data := List.getElem_mem hkd
    rw [twos_comp_to_twos_comp data[k] f.size (by omega)
        (le_trans hlo (hdata _ hmem).1)
        (lt_of_le_of_lt (hdata _ hmem).2 hhi)]

/-- C10: for every field write that succeeds (`_set_value` with a value not
exceeding `(1 << size) - 1` on a buffer it fits into), every bit of the
buffer outside the target range `[start_bit, start_bit + size)` is left
unchanged, and the buffer length is preserved. -/
theorem claim_C10_set_value_frame (f : HidField) (report : List Nat) (value idx : Nat)
    (report' : List Nat) (j : Nat)
    (hval : value ≤ 2 ^ f.size - 1)
    (hok : f._set_value report value idx = .ok report')
    (hj : j < f.start + f.size * idx ∨ f.start + f.size * idx + f.size ≤ j) :
    bitAt report' j = bitAt report j ∧ report'.length = report.length := by
  obtain ⟨hlen, hbits⟩ := set_value_ok_spec f report value idx report' hval hok
  exact ⟨by rw [hbits j, if_neg (by omega)], hlen⟩

end HidTools

namespace HidTools

set_option maxRecDepth 4000 in
/-- Header-byte reconstruction: size code bits OR tag bits give the byte
back. -/
theorem header_recombine : ∀ b < 256, (b &&& 0xfc) ||| (b &&& 0x3) = b := by
  decide

theorem mkHidRDescItem_ok (hid : Nat) (value : Int) (raws : List Nat)
    (item : HidRDescItem) (h : mkHidRDescItem hid value raws = .ok item) :
    item.hid = hid ∧ item.raw_value = raws := by
  rw [mkHidRDescItem] at h
  cases hl : List.lookup hid inv_hid with
  | none => rw [hl] at h; cases h
  | some s => rw [hl] at h; cases h; exact ⟨rfl, rfl⟩

/-- A successfully decoded item re-serialises to exactly the bytes it was
decoded from. -/
theorem one_item_bytes (b : Nat) (rest : List Nat) (item : HidRDescItem)
    (hb : b < 256)
    (h : HidRDescItem._one_item_from_bytes (b :: rest) = .ok (some item)) :
    item.bytes = b :: rest.take (oneItemSize b) ∧
      item.size = 1 + oneItemSize b ∧ oneItemSize b ≤ rest.length := by
  rw [HidRDescItem._one_item_from_bytes] at h
  by_cases h0 : b = 0 ∧ rest = []
  · rw [if_pos h0] at h; cases h
  · rw [if_neg h0] at h
    by_cases hhid : b &&& 0xfc = 0
    · rw [if_pos hhid] at h; cases h
    · rw [if_neg hhid] at h
      by_cases hsz : oneItemSize b ≤ rest.length
      · rw [if_pos hsz] at h
        dsimp only at h
        cases hmk : mkHidRDescItem (b &&& 0xfc)
            (assembleLE (rest.take (oneItemSize b))) (rest.take (oneItemSize b)) with
        | error e => rw [hmk] at h; cases h
        | ok item2 =>
          rw [hmk] at h
          cases h
          obtain ⟨hh, hr⟩ := mkHidRDescItem_ok _ _ _ _ hmk
          have hrl : item.raw_value.length = oneItemSize b := by
            rw [hr, List.length_take]
            omega
          have hsize3 : oneItemSize b = 4 ∨ oneItemSize b = b &&& 0x3 := by
            rw [oneItemSize]
            split
            · exact Or.inl rfl
            · exact Or.inr rfl
          have hand3 : b &&& 0x3 < 4 := by
            have : b &&& 0x3 ≤ 0x3 := Nat.and_le_right
            omega
          refine ⟨?_, by rw [HidRDescItem.size, hrl], hsz⟩
          rw [HidRDescItem.bytes, hr, hh]
          have hhead : (if (rest.take (oneItemSize b)).length = 4
              then b &&& 0xfc ||| 0x3
              else b &&& 0xfc ||| (rest.take (oneItemSize b)).length) = b := by
            have hlt : (rest.take (oneItemSize b)).length = oneItemSize b := by
              rw [List.length_take]; omega
            rw [hlt]
            rcases hsize3 with h4 | hsc
            · rw [h4, if_pos rfl]
              have h3 : b &&& 0x3 = 3 := by
                rw [oneItemSize] at h4
                split at h4
                · assumption
                · omega
              rw [← h3]
              exact header_recombine b hb
            · rw [hsc]
              rw [if_neg (by omega)]
              exact header_recombine b hb
          rw [hhead]
      · rw [if_neg hsz] at h
        cases h

/-- Serialisation inverts a full parse: when the loop consumed every byte
(total item size equals the input length), the items' bytes concatenate to
the input. -/
theorem fromBytesGo_bytes :
    ∀ (fuel : Nat) (D : List Nat) (items : List HidRDescItem),
      D.length < fuel → (∀ b ∈ D, b < 256) →
      fromBytesGo fuel D = .ok items →
      (items.map HidRDescItem.size).sum = D.length →
      (items.map HidRDescItem.bytes).flatten = D := by
  intro fuel
  induction fuel with
  | zero => intro D items h; omega
  | succ fuel ih =>
    intro D items hfuel hbytes heq hsum
    cases D with
    | nil =>
      rw [fromBytesGo] at heq
      cases heq
      rfl
    | cons b rest =>
      rw [fromBytesGo] at heq
      cases hone : HidRDescItem._one_item_from_bytes (b :: rest) with
      | error e => rw [hone] at heq; cases heq
      | ok oitem =>
        rw [hone] at heq
        cases oitem with
        | none =>
          cases heq
          simp at hsum
        | some item =>
          dsimp only at heq
          cases hrec : fromBytesGo fuel (rest.drop (item.size - 1)) with
          | error e => rw [hrec] at heq; cases heq
          | ok items' =>
            rw [hrec] at heq
            cases heq
            obtain ⟨hib, hisz, hle⟩ := one_item_bytes b rest item
              (hbytes b (by simp)) hone
            have hdl : item.size - 1 = oneItemSize b := by omega
            rw [hdl] at hrec
            have hsum' : (items'.map HidRDescItem.size).sum =
                (rest.drop (oneItemSize b)).length := by
              simp only [List.map_cons, List.sum_cons] at hsum
              rw [List.length_drop]
              simp at hsum ⊢
              omega
            have hrest : (items'.map HidRDescItem.bytes).flatten =
                rest.drop (oneItemSize b) := by
              refine ih (rest.drop (oneItemSize b)) items' ?_ ?_ hrec hsum'
              · rw [List.length_drop]
                simp at hfuel
                omega
              · intro x hx
                exact hbytes x (by
                  simp only [List.mem_cons]
                  exact Or.inr (List.mem_of_mem_drop hx))
            simp only [List.map_cons, List.flatten_cons, hib, hrest]
            simp [List.take_append_drop]

end HidTools

namespace HidTools

/-- C1: parsing a valid descriptor byte sequence with
`ReportDescriptor.from_bytes` and serialising the result with the `bytes`
property returns exactly the input, byte for byte. Validity is: all
entries are bytes, the parse succeeds, and the items consumed the whole
input (no tolerated trailing-zero truncation). -/
theorem claim_C1_byte_roundtrip (D : List Nat) (d : ReportDescriptor)
    (hbytes : ∀ b ∈ D, b < 256)
    (hok : ReportDescriptor.from_bytes D = .ok d)
    (hall : (d.rdesc_items.map HidRDescItem.size).sum = D.length) :
    d.bytes = D := by
  rw [ReportDescriptor.from_bytes] at hok
  cases hfb : HidRDescItem.from_bytes D with
  | error e => rw [hfb] at hok; cases hok
  | ok items =>
    rw [hfb] at hok
    dsimp only at hok
    rw [ReportDescriptor.ofItems] at hok
    cases hfold : items.foldlM parseItem RDState.init with
    | error e => rw [hfold] at hok; cases hok
    | ok s =>
      rw [hfold] at hok
      cases hok
      rw [ReportDescriptor.bytes]
      exact fromBytesGo_bytes (D.length + 1) D items (by omega) hbytes hfb hall

/-- C3 (amended): evaluator transitions can raise. A Collection item whose
value is not 0, 1 or 2 raises `KeyError` (`INV_COLLECTIONS[value]`) instead
of passing through, and `Pop` with an empty global stack raises
`IndexError`; a Collection with value in {0, 1, 2} and no pending local
usages succeeds and leaves all scoped usages unset (unchanged). -/
theorem claim_C3_amended (s : RDState) (v : Int) (raw : List Nat) :
    (¬(v = 0 ∨ v = 1 ∨ v = 2) →
      parseItem s ⟨0xA0, v, raw⟩ = .error .keyError)
  ∧ (s.loc.usages = [] → (v = 0 ∨ v = 1 ∨ v = 2) →
      ∃ s', parseItem s ⟨0xA0, v, raw⟩ = .ok s' ∧
        s'.glob.physical = s.glob.physical ∧
        s'.glob.application = s.glob.application ∧
        s'.glob.logical = s.glob.logical)
  ∧ (s.global_stack = [] → parseItem s ⟨0xB4, v, raw⟩ = .error .indexError) := by
  have hcoll : parseItem s ⟨0xA0, v, raw⟩ = parseCollection s v := rfl
  refine ⟨?_, ?_, ?_⟩
  · intro hv
    rw [hcoll, parseCollection,
        if_neg (by omega), if_neg (by omega), if_neg (by omega)]
  · intro hu hv
    rcases hv with hv | hv | hv <;> subst hv
    · refine ⟨{ s with
          collection := (s.collection.1, s.collection.2.1 + 1, s.collection.2.2),
          loc := { s.loc with usages := [], usage_min := 0, usage_max := 0 } },
        ?_, rfl, rfl, rfl⟩
      rw [hcoll, parseCollection, if_pos rfl, hu]
      rfl
    · refine ⟨{ s with
          collection := (s.collection.1 + 1, s.collection.2.1, s.collection.2.2),
          loc := { s.loc with usages := [], usage_min := 0, usage_max := 0 } },
        ?_, rfl, rfl, rfl⟩
      rw [hcoll, parseCollection, if_neg (by omega), if_pos rfl, hu]
      rfl
    · refine ⟨{ s with
          collection := (s.collection.1, s.collection.2.1, s.collection.2.2 + 1),
          loc := { s.loc with usages := [], usage_min := 0, usage_max := 0 } },
        ?_, rfl, rfl, rfl⟩
      rw [hcoll, parseCollection, if_neg (by omega), if_neg (by omega),
          if_pos rfl, hu]
      rfl
  · intro hstack
    have hpop : parseItem s ⟨0xB4, v, raw⟩ =
        (match s.global_stack with
         | [] => .error .indexError
         | g :: rest => .ok { s with glob := g, global_stack := rest }) := rfl
    rw [hpop, hstack]

end HidTools

namespace HidTools

theorem hexLenF_pos (f n : Nat) : 1 ≤ hexLenF f n := by
  cases f with
  | zero => exact le_refl 1
  | succ f =>
    rw [hexLenF]
    split <;> omega

theorem hexLenF_congr : ∀ (f1 f2 n : Nat), n < f1 → n < f2 →
    hexLenF f1 n = hexLenF f2 n := by
  intro f1
  induction f1 with
  | zero => intro f2 n h; omega
  | succ f1 ih =>
    intro f2 n h1 h2
    cases f2 with
    | zero => omega
    | succ f2 =>
      rw [hexLenF, hexLenF]
      by_cases h16 : n < 16
      · rw [if_pos h16, if_pos h16]
      · rw [if_neg h16, if_neg h16, ih f2 (n / 16) (by omega) (by omega)]

theorem hexLen_small (n : Nat) (h : n < 16) : hexLen n = 1 := by
  rw [hexLen, hexLenF, if_pos h]

theorem hexLen_step (n : Nat) (h : 16 ≤ n) :
    hexLen n = 1 + hexLen (n / 16) := by
  rw [hexLen, hexLen, hexLenF, if_neg (by omega)]
  rw [hexLenF_congr n (n / 16 + 1) (n / 16) (by omega) (by omega)]

/-- Bound `hexLen n` is at most `k + 1` exactly when `n` fits in `k + 1` hex
digits. -/
theorem hexLen_le_iff : ∀ (k n : Nat), hexLen n ≤ k + 1 ↔ n < 16 ^ (k + 1) := by
  intro k
  induction k with
  | zero =>
    intro n
    by_cases h : n < 16
    · simp [hexLen_small n h]
      omega
    · rw [hexLen_step n (by omega)]
      have h1 := hexLenF_pos (n / 16 + 1) (n / 16)
      rw [← hexLen] at h1
      constructor
      · intro h2; omega
      · intro h2
        norm_num at h2
        omega
  | succ k ih =>
    intro n
    by_cases h : n < 16
    · rw [hexLen_small n h]
      have h16 : (16:Nat) ≤ 16 ^ (k + 1 + 1) := by
        calc (16:Nat) = 16 ^ 1 := by norm_num
        _ ≤ 16 ^ (k + 1 + 1) := Nat.pow_le_pow_right (by norm_num) (by omega)
      constructor
      · intro _; omega
      · intro _; omega
    · rw [hexLen_step n (by omega)]
      have hiff := ih (n / 16)
      have hdiv : n / 16 < 16 ^ (k + 1) ↔ n < 16 ^ (k + 1 + 1) := by
        rw [Nat.div_lt_iff_lt_mul (by norm_num : (0:Nat) < 16)]
        rw [show (16:Nat) ^ (k + 1 + 1) = 16 ^ (k + 1) * 16 from pow_succ 16 (k + 1)]
      constructor
      · intro h2
        rw [← hdiv]
        rw [← hiff]
        omega
      · intro h2
        have := (hiff.mpr (hdiv.mpr h2))
        omega

/-- C7 (amended): the text front-end chooses the payload width from the hex
rendering of `value + 1` (including a sign character when negative): 0
bytes with no argument; 1 byte for -16 <= value <= 254; 2 bytes for
-4096 <= value <= 65534 outside that; else 4. In particular
`Logical Minimum (-127)` encodes to the three bytes `16 81 ff`, not to
`15 81`. -/
theorem claim_C7_amended (v : Int) :
    payloadCount none = 0
  ∧ (0 ≤ v → payloadCount (some v) =
      if v ≤ 254 then 1 else if v ≤ 65534 then 2 else 4)
  ∧ (v < 0 → payloadCount (some v) =
      if -16 ≤ v then 1 else if -4096 ≤ v then 2 else 4)
  ∧ (HidRDescItem.from_human_descr_num "Logical Minimum" (some (-127))).map
      HidRDescItem.bytes = .ok [0x16, 0x81, 0xff] := by
  refine ⟨rfl, ?_, ?_, by decide⟩
  · intro hv
    have hpy : pyHexLen (v + 1) = hexLen (v + 1).toNat := by
      rw [pyHexLen, if_neg (by omega)]
    have hform : payloadCount (some v) =
        if hexLen (v + 1).toNat * 4 ≤ 8 then 1
        else if hexLen (v + 1).toNat * 4 ≤ 16 then 2 else 4 := by
      rw [payloadCount, hpy]
    rw [hform]
    set m := (v + 1).toNat with hm
    have h2 := hexLen_le_iff 1 m
    have h4 := hexLen_le_iff 3 m
    norm_num at h2 h4
    by_cases hc1 : v ≤ 254
    · have hle : hexLen m ≤ 2 := h2.mpr (by omega)
      rw [if_pos (by omega), if_pos hc1]
    · have hgt : ¬ hexLen m ≤ 2 := fun hc => by
        have := h2.mp hc
        omega
      by_cases hc2 : v ≤ 65534
      · have hle4 : hexLen m ≤ 4 := h4.mpr (by omega)
        rw [if_neg (by omega), if_pos (by omega), if_neg hc1, if_pos hc2]
      · have hgt4 : ¬ hexLen m ≤ 4 := fun hc => by
          have := h4.mp hc
          omega
        rw [if_neg (by omega), if_neg (by omega), if_neg hc1, if_neg hc2]
  · intro hv
    by_cases hm1 : v = -1
    · subst hm1
      have hpy : pyHexLen ((-1 : Int) + 1) = 1 := by
        rw [pyHexLen, if_neg (by omega),
            show ((-1 : Int) + 1).toNat = 0 by rfl,
            hexLen_small 0 (by norm_num)]
      have hform : payloadCount (some (-1)) = 1 := by
        rw [payloadCount, hpy]
        norm_num
      rw [hform, if_pos (by omega)]
    · have hpy : pyHexLen (v + 1) = 1 + hexLen (-(v + 1)).toNat := by
        rw [pyHexLen, if_pos (by omega)]
      have hform : payloadCount (some v) =
          if (1 + hexLen (-(v + 1)).toNat) * 4 ≤ 8 then 1
          else if (1 + hexLen (-(v + 1)).toNat) * 4 ≤ 16 then 2 else 4 := by
        rw [payloadCount, hpy]
      rw [hform]
      set m := (-(v + 1)).toNat with hm
      have h1 := hexLen_le_iff 0 m
      have h3 := hexLen_le_iff 2 m
      norm_num at h1 h3
      by_cases hc1 : -16 ≤ v
      · have hle : hexLen m ≤ 1 := h1.mpr (by omega)
        rw [if_pos (by omega), if_pos hc1]
      · have hgt : ¬ hexLen m ≤ 1 := fun hc => by
          have := h1.mp hc
          omega
        by_cases hc2 : -4096 ≤ v
        · have hle3 : hexLen m ≤ 3 := h3.mpr (by omega)
          rw [if_neg (by omega), if_pos (by omega), if_neg hc1, if_pos hc2]
        · have hgt3 : ¬ hexLen m ≤ 3 := fun hc => by
            have := h3.mp hc
            omega
          rw [if_neg (by omega), if_neg (by omega), if_neg hc1, if_neg hc2]

/-- Lemma `extend` adds the fields' sizes to the bit cursor and never changes the
report ID. -/
theorem extend_bitsize : ∀ (fs : List HidField) (r : HidReport),
    (r.extend fs).bitsize = r.bitsize + (fs.map HidField.size).sum ∧
      (r.extend fs).report_ID = r.report_ID := by
  intro fs
  induction fs with
  | nil => intro r; simp [HidReport.extend]
  | cons f fs ih =>
    intro r
    have h1 : r.extend (f :: fs) = (r.append f).extend fs := rfl
    rw [h1]
    obtain ⟨hb, hi⟩ := ih (r.append f)
    rw [hb, hi]
    simp [HidReport.append]
    omega

end HidTools

namespace HidTools

/-- C8 (amended): for every report built by `extend`, `has_been_populated`
is true iff the report holds at least one bit of field payload beyond the
ID byte when numbered, and at least one full byte (8 bits) of payload when
unnumbered (`size > 0` is `bitsize >> 3 > 0`). -/
theorem claim_C8_amended (id : Int) (app : Option Nat) (fs : List HidField) :
    ((HidReport.init id app).extend fs).has_been_populated = true ↔
      (if 0 ≤ id then 0 < (fs.map HidField.size).sum
       else 8 ≤ (fs.map HidField.size).sum) := by
  obtain ⟨hb, hi⟩ := extend_bitsize fs (HidReport.init id app)
  rw [HidReport.has_been_populated, HidReport.size, hi, hb]
  have hinit_id : (HidReport.init id app).report_ID = id := rfl
  have hinit_b : (HidReport.init id app).bitsize = if id ≥ 0 then 8 else 0 := rfl
  rw [hinit_id, hinit_b]
  have hsh : ∀ x : Nat, x >>> 3 = x / 8 := fun x => by
    rw [Nat.shiftRight_eq_div_pow]
  by_cases hid : (0 : Int) ≤ id
  · rw [if_pos hid, if_pos hid, if_pos hid]
    simp only [decide_eq_true_eq]
    omega
  · rw [if_neg hid, if_neg hid, if_neg hid, hsh]
    simp only [decide_eq_true_eq]
    omega

/-- C9: `get(report_id, min_size)` returns an input report iff it is the
report stored under the exact report ID - or, when that ID is absent, the
unnumbered report stored under -1 - and its size is at least the
threshold; it returns `None` when no qualifying report exists. -/
theorem claim_C9_get (d : ReportDescriptor) (rid : Int) (sz : Nat) (r : HidReport) :
    d.get rid sz = some r ↔
      ((List.lookup rid d.input_reports = some r ∨
        (List.lookup rid d.input_reports = none ∧
         List.lookup (-1 : Int) d.input_reports = some r)) ∧
       sz ≤ r.size) := by
  cases h1 : List.lookup rid d.input_reports with
  | some r1 =>
    have hred : d.get rid sz = if r1.size ≥ sz then some r1 else none := by
      rw [ReportDescriptor.get, h1]
    rw [hred]
    by_cases hsz : r1.size ≥ sz
    · rw [if_pos hsz]
      constructor
      · intro h
        rw [Option.some_inj] at h
        subst h
        exact ⟨Or.inl rfl, hsz⟩
      · rintro ⟨hc, hsz'⟩
        rcases hc with hc | ⟨hn, -⟩
        · cases hc
          rfl
        · cases hn
    · rw [if_neg hsz]
      constructor
      · intro h
        cases h
      · rintro ⟨hc, hsz'⟩
        rcases hc with hc | ⟨hn, -⟩
        · cases hc
          exact absurd hsz' hsz
        · cases hn
  | none =>
    cases h2 : List.lookup (-1 : Int) d.input_reports with
    | some r1 =>
      have hred : d.get rid sz = if r1.size ≥ sz then some r1 else none := by
        rw [ReportDescriptor.get, h1, h2]
      rw [hred]
      by_cases hsz : r1.size ≥ sz
      · rw [if_pos hsz]
        constructor
        · intro h
          rw [Option.some_inj] at h
          subst h
          exact ⟨Or.inr ⟨rfl, rfl⟩, hsz⟩
        · rintro ⟨hc, hsz'⟩
          rcases hc with hc | ⟨-, hn⟩
          · cases hc
          · cases hn
            rfl
      · rw [if_neg hsz]
        constructor
        · intro h
          cases h
        · rintro ⟨hc, hsz'⟩
          rcases hc with hc | ⟨-, hn⟩
          · cases hc
          · cases hn
            exact absurd hsz' hsz
    | none =>
      have hred : d.get rid sz = none := by
        rw [ReportDescriptor.get, h1, h2]
      rw [hred]
      constructor
      · intro h
        cases h
      · rintro ⟨hc, -⟩
        rcases hc with hc | ⟨-, hn⟩
        · cases hc
        · cases hn

end HidTools

namespace HidTools

/-- A sample field used by concrete check theorems: 8-bit signed Variable
field at bit offset 0. -/
def sampleField8 : HidField :=
  { report_ID := -1, logical := none, physical := none, application := none,
    collection := (0, 0, 0), type := 2, usage_page := 0, usage := 0,
    usages := none, logical_min := -127, logical_max := 127,
    size := 8, count := 1, start := 0 }

/-- C1 witness: the two-byte descriptor `05 01` (Usage Page 1) parses and
serialises back to itself. -/
theorem claim_C1_byte_roundtrip_witness :
    (∀ b ∈ [0x05, 0x01], b < 256) ∧
    ReportDescriptor.from_bytes [0x05, 0x01] =
      .ok { rdesc_items := [{ hid := 0x04, value := 1, raw_value := [1] }],
            input_reports := [], output_reports := [], feature_reports := [],
            win8 := false } ∧
    ReportDescriptor.bytes
      { rdesc_items := [{ hid := 0x04, value := 1, raw_value := [1] }],
        input_reports := [], output_reports := [], feature_reports := [],
        win8 := false } = [0x05, 0x01] :=
  ⟨by decide, by decide,
   claim_C1_byte_roundtrip [0x05, 0x01] _ (by decide) (by decide) (by decide)⟩

/-- C2: evaluating the descriptor `75 08 95 02 81 00` (Report Size 8,
Report Count 2, Input Data/Array) yields an unnumbered input report whose
`bitsize` is 8, while the claimed bit budget
`(8 if numbered else 0) + Σ field.bit_size * field.count` is 16: the
cursor advanced by `size`, not `size * count`, for the Array field. -/
theorem claim_C2_bit_budget_failing_input :
    (ReportDescriptor.from_bytes [0x75, 0x08, 0x95, 0x02, 0x81, 0x00]).map
      (fun d => (List.lookup (-1 : Int) d.input_reports).map
        (fun r => (r.bitsize,
          (if r.report_ID ≥ 0 then 8 else 0) +
            (r.fields.map (fun fl => fl.size * fl.count)).sum)))
      = .ok (some (8, 16)) ∧ (8 : Nat) ≠ 16 := by
  decide

/-- C3 counterexample: a Collection item with value 3 makes `_parse_item`
raise `KeyError` (the claim says it is passed through without raising). -/
theorem claim_C3_counterexample :
    parseItem RDState.init { hid := 0xA0, value := 3, raw_value := [3] } =
      .error .keyError := by
  decide

/-- C3 witness: concrete instances of the amended behaviour. -/
theorem claim_C3_amended_witness :
    parseItem RDState.init { hid := 0xA0, value := 4, raw_value := [4] } =
      .error .keyError ∧
    parseItem RDState.init { hid := 0xB4, value := 0, raw_value := [] } =
      .error .indexError ∧
    ∃ s', parseItem RDState.init { hid := 0xA0, value := 1, raw_value := [1] } =
        .ok s' ∧
      s'.glob.physical = RDState.init.glob.physical ∧
      s'.glob.application = RDState.init.glob.application ∧
      s'.glob.logical = RDState.init.glob.logical :=
  ⟨(claim_C3_amended RDState.init 4 [4]).1 (by decide),
   (claim_C3_amended RDState.init 0 []).2.2 rfl,
   (claim_C3_amended RDState.init 1 [1]).2.1 rfl (by decide)⟩

/-- C4 counterexample: a truncated payload (header `15` = Logical Minimum
with one declared payload byte, no bytes following) raises `IndexError`,
not `ParseError` as claimed. -/
theorem claim_C4_counterexample :
    HidRDescItem._one_item_from_bytes [0x15] = .error .indexError ∧
    HidRDescItem._one_item_from_bytes [0x15] ≠ .error .parseError := by
  decide

/-- C4 (amended): a 0x00 header as the single final byte is tolerated and
ends parsing; a header whose upper six bits are zero anywhere else raises
`ParseError`; a payload truncated before its declared length raises
`IndexError` (an uncaught built-in exception, not `ParseError`). -/
theorem claim_C4_amended (h : Nat) (rest : List Nat) :
    (HidRDescItem._one_item_from_bytes [0] = .ok none)
  ∧ (h &&& 0xfc = 0 → ¬(h = 0 ∧ rest = []) →
      HidRDescItem._one_item_from_bytes (h :: rest) = .error .parseError)
  ∧ (h &&& 0xfc ≠ 0 → rest.length < oneItemSize h →
      HidRDescItem._one_item_from_bytes (h :: rest) = .error .indexError) := by
  refine ⟨by decide, ?_, ?_⟩
  · intro hhid hnz
    rw [HidRDescItem._one_item_from_bytes, if_neg hnz, if_pos hhid]
  · intro hhid htr
    have hnz : ¬(h = 0 ∧ rest = []) := by
      rintro ⟨rfl, -⟩
      exact hhid rfl
    rw [HidRDescItem._one_item_from_bytes, if_neg hnz, if_neg hhid,
        if_neg (by omega)]

/-- C4 witness: concrete instances of the amended behaviour. -/
theorem claim_C4_amended_witness :
    HidRDescItem._one_item_from_bytes [0x01] = .error .parseError ∧
    HidRDescItem._one_item_from_bytes [0x16, 0x81] = .error .indexError :=
  ⟨(claim_C4_amended 0x01 []).2.1 (by decide) (by decide),
   (claim_C4_amended 0x16 [0x81]).2.2 (by decide) (by decide)⟩

/-- C5 counterexample: for a 1-bit field with `logical_min = -1`, writing
-1 and reading it back yields 1, because `_get_value` only sign-decodes
when `size > 1`. -/
theorem claim_C5_counterexample :
    (HidField.set_values { sampleField8 with
        logical_min := -1, logical_max := 0, size := 1 } [0] [-1]).map
      (fun r => HidField.get_values { sampleField8 with
        logical_min := -1, logical_max := 0, size := 1 } r)
      = .ok [.val 1] ∧ HidValue.val 1 ≠ HidValue.val (-1) := by
  decide

/-- C5 witness: the 8-bit signed field round-trips -5 through a one-byte
buffer. -/
theorem claim_C5_amended_witness :
    HidField.get_values sampleField8 [0xfb] = ([-5] : List Int).map HidValue.val :=
  claim_C5_amended sampleField8 [-5] 1 [0xfb] (by decide) (by decide)
    (by decide) (by decide) (by decide) (by decide) (by decide)

/-- C6 counterexample: a 16-bit read whose covering byte range [0, 3)
extends beyond a 1-byte buffer returns a truncated value, not the
sentinel. -/
theorem claim_C6_counterexample :
    HidField._get_value { sampleField8 with size := 16, logical_min := 0 }
      [0xff] 0 = .val 255 ∧ HidValue.val 255 ≠ HidValue.noData := by
  decide

/-- C7 counterexample: `Logical Minimum (-127)` encodes to the three bytes
`16 81 ff`, not to the claimed two bytes `15 81`. -/
theorem claim_C7_counterexample :
    (HidRDescItem.from_human_descr_num "Logical Minimum" (some (-127))).map
      HidRDescItem.bytes = .ok [0x16, 0x81, 0xff] ∧
    (HidRDescItem.from_human_descr_num "Logical Minimum" (some (-127))).map
      HidRDescItem.bytes ≠ .ok [0x15, 0x81] := by
  decide

/-- C7 witness: concrete instances of the width rule. -/
theorem claim_C7_amended_witness :
    payloadCount (some 300) =
      (if (300 : Int) ≤ 254 then 1 else if (300 : Int) ≤ 65534 then 2 else 4) ∧
    payloadCount (some (-127)) =
      (if (-16 : Int) ≤ -127 then 1 else if (-4096 : Int) ≤ -127 then 2 else 4) :=
  ⟨(claim_C7_amended 300).2.1 (by decide),
   (claim_C7_amended (-127)).2.2.1 (by decide)⟩

/-- C8 counterexample: an unnumbered report holding a single 1-bit field
has one bit of payload but `has_been_populated` is false (the source tests
`size > 0`, i.e. at least one full byte). -/
theorem claim_C8_counterexample :
    ((HidReport.init (-1) none).extend [{ sampleField8 with size := 1 }]).bitsize
      = 1 ∧
    ((HidReport.init (-1) none).extend
      [{ sampleField8 with size := 1 }]).has_been_populated = false := by
  decide

/-- C10 witness: writing value 5 into the 3-bit slot at bits [2, 5) of
`[0xff]` leaves bit 1 unchanged. -/
theorem claim_C10_set_value_frame_witness :
    bitAt [0xf7] 1 = bitAt [0xff] 1 ∧ [(0xf7 : Nat)].length = [(0xff : Nat)].length :=
  claim_C10_set_value_frame
    { sampleField8 with logical_min := 0, logical_max := 7, size := 3, start := 2 }
    [0xff] 5 0 [0xf7] 1 (by decide) (by decide) (by decide)

end HidTools
